import Mathlib

/-!
Verification of the review-aggregation layer of
`candidates/models/db.py` (yournextrepresentative).

The Python dictionaries that flow through `merge_dicts_with_list_values`
and `LoggedActionQuerySet.needs_review` map a record identity (a
`LoggedAction`) to a list of human-readable reason strings.  We embed a
dictionary as an association list `List (K × List String)`; lookup
(`dict.get(k, [])` in Python) is first-match lookup, and the comprehension
`{k: dict_a.get(k, []) + dict_b.get(k, []) for k in set(dict_a.keys()) | set(dict_b.keys())}`
becomes a map over the duplicate-free union of the two key lists.
Python's `set(a) | set(b)` has unspecified iteration order, and the result
of the comprehension is a dict (extensional, order-irrelevant); we fix the
concrete order given by `List.dedup` of the concatenated key lists.

`reduce(f, xs, init)` in Python is `List.foldl f init xs`.
-/

variable {K : Type} [DecidableEq K]

/-- A Python dict from record identity to list of reason strings,
embedded as an association list. -/
abbrev ReasonDict (K : Type) := List (K × List String)

/-- Python `d.get(k)` restricted to our value type: `some` of the value
stored at the first entry for `k`, `none` when `k` is absent. -/
def dictGet? (d : ReasonDict K) (k : K) : Option (List String) :=
  (d.find? fun p => decide (p.1 = k)).map Prod.snd

/-- Python `d.get(k, [])`: the stored list, or `[]` when `k` is absent. -/
def dictGetD (d : ReasonDict K) (k : K) : List String :=
  (dictGet? d k).getD []

/-- Python `d.keys()`. -/
def dictKeys (d : ReasonDict K) : List K :=
  d.map Prod.fst

/-- Embedding of `merge_dicts_with_list_values(dict_a, dict_b)`
(db.py lines 18-22): for each key in the union of the two key sets, the
value is `dict_a.get(k, []) + dict_b.get(k, [])`. -/
def merge_dicts_with_list_values (dict_a dict_b : ReasonDict K) : ReasonDict K :=
  ((dictKeys dict_a ++ dictKeys dict_b).dedup).map
    fun k => (k, dictGetD dict_a k ++ dictGetD dict_b k)

/-- Embedding of `LoggedActionQuerySet.needs_review` (db.py lines 31-37):
`reduce(merge_dicts_with_list_values, [f(self) for f in needs_review_fns], {})`.
The reason-function list `needs_review_fns` is configured outside this
module, so it is a parameter; the collection `self` is the list of record
identities the queryset holds. -/
def needs_review (fns : List (List K → ReasonDict K)) (self : List K) : ReasonDict K :=
  (fns.map fun f => f self).foldl merge_dicts_with_list_values []

/-- First-match lookup over a list tagged with its own keys: it finds `k`
exactly when `k` is in the key list, and then returns `(k, f k)`. -/
theorem find?_map_self (l : List K) (f : K → List String) (k : K) :
    ((l.map fun x => (x, f x)).find? fun p => decide (p.1 = k)) =
      if k ∈ l then some (k, f k) else none := by
  induction l with
  | nil => simp
  | cons a l ih =>
    by_cases h : a = k
    · subst h
      simp [List.find?]
    · simp only [List.map_cons, List.find?, decide_eq_true_eq, h, decide_False]
      rw [ih]
      simp [Ne.symm h, List.mem_cons, h]

/-- Lookup in a merged dict: present iff present in either argument, and
then the value is the concatenation of the two (defaulted) values. -/
theorem dictGet?_merge (a b : ReasonDict K) (k : K) :
    dictGet? (merge_dicts_with_list_values a b) k =
      if k ∈ dictKeys a ∨ k ∈ dictKeys b then some (dictGetD a k ++ dictGetD b k)
      else none := by
  unfold merge_dicts_with_list_values dictGet?
  rw [find?_map_self]
  by_cases h : k ∈ dictKeys a ∨ k ∈ dictKeys b
  · simp [List.mem_dedup, List.mem_append, h]
  · simp [List.mem_dedup, List.mem_append, h]

/-- Key presence is the same as the lookup being `some`. -/
theorem dictGet?_isSome_iff (d : ReasonDict K) (k : K) :
    (dictGet? d k).isSome = true ↔ k ∈ dictKeys d := by
  unfold dictGet? dictKeys
  induction d with
  | nil => simp
  | cons p d ih =>
    by_cases h : p.1 = k
    · simp [List.find?, h]
    · simp only [List.find?, decide_eq_true_eq, h, decide_False, List.map_cons,
        List.mem_cons]
      rw [ih]
      simp [Ne.symm h]

/-- The defaulted lookup of a merge is always the concatenation of the two
defaulted lookups (when the key is in neither dict, both sides are `[]`). -/
theorem dictGetD_merge (a b : ReasonDict K) (k : K) :
    dictGetD (merge_dicts_with_list_values a b) k = dictGetD a k ++ dictGetD b k := by
  unfold dictGetD
  rw [dictGet?_merge]
  by_cases h : k ∈ dictKeys a ∨ k ∈ dictKeys b
  · simp [dictGetD, h]
  · push_neg at h
    have ha : dictGet? a k = none := by
      cases hga : dictGet? a k with
      | none => rfl
      | some v =>
        exact absurd ((dictGet?_isSome_iff a k).mp (by simp [hga])) h.1
    have hb : dictGet? b k = none := by
      cases hgb : dictGet? b k with
      | none => rfl
      | some v =>
        exact absurd ((dictGet?_isSome_iff b k).mp (by simp [hgb])) h.2
    simp [h.1, h.2, ha, hb]

/-- C1: the merge of two reason dicts contains exactly the keys present in
either input, and at each such key its value is the first dict's list
(empty if absent) followed by the second dict's list (empty if absent);
keys absent from both are absent from the result. -/
theorem merge_dicts_with_list_values_spec (dict_a dict_b : ReasonDict K) (k : K) :
    dictGet? (merge_dicts_with_list_values dict_a dict_b) k =
      if (dictGet? dict_a k).isSome ∨ (dictGet? dict_b k).isSome then
        some (dictGetD dict_a k ++ dictGetD dict_b k)
      else none := by
  rw [dictGet?_merge]
  by_cases h : k ∈ dictKeys dict_a ∨ k ∈ dictKeys dict_b
  · rw [if_pos h, if_pos]
    rcases h with h | h
    · exact Or.inl ((dictGet?_isSome_iff dict_a k).mpr h)
    · exact Or.inr ((dictGet?_isSome_iff dict_b k).mpr h)
  · rw [if_neg h, if_neg]
    intro hc
    rcases hc with hc | hc
    · exact h (Or.inl ((dictGet?_isSome_iff dict_a k).mp hc))
    · exact h (Or.inr ((dictGet?_isSome_iff dict_b k).mp hc))

/-- The keys of a merge are the deduplicated concatenation of the keys. -/
theorem dictKeys_merge (a b : ReasonDict K) :
    dictKeys (merge_dicts_with_list_values a b) = (dictKeys a ++ dictKeys b).dedup := by
  simp [dictKeys, merge_dicts_with_list_values, Function.comp_def]

/-- A key is present in a merge iff it is present in either argument. -/
theorem dictGet?_merge_isSome (a b : ReasonDict K) (k : K) :
    (dictGet? (merge_dicts_with_list_values a b) k).isSome = true ↔
      (dictGet? a k).isSome = true ∨ (dictGet? b k).isSome = true := by
  rw [dictGet?_isSome_iff, dictKeys_merge, List.mem_dedup, List.mem_append,
    dictGet?_isSome_iff, dictGet?_isSome_iff]

/-- Lookup through a left fold of merges: the result holds a key iff the
accumulator or one of the folded dicts holds it, and its value is the
accumulator's (defaulted) list followed by the dicts' lists in fold
order. -/
theorem dictGet?_foldl_merge (ds : List (ReasonDict K)) (acc : ReasonDict K) (k : K) :
    dictGet? (ds.foldl merge_dicts_with_list_values acc) k =
      if (dictGet? acc k).isSome = true ∨ ∃ d ∈ ds, (dictGet? d k).isSome = true then
        some (dictGetD acc k ++ (ds.map fun d => dictGetD d k).flatten)
      else none := by
  induction ds generalizing acc with
  | nil =>
    simp only [List.foldl_nil, List.map_nil, List.flatten_nil, List.append_nil,
      List.not_mem_nil, false_and, exists_false, or_false]
    cases hga : dictGet? acc k with
    | none => simp [hga]
    | some v => simp [dictGetD, hga]
  | cons d ds ih =>
    rw [List.foldl_cons, ih]
    have hc : ((dictGet? (merge_dicts_with_list_values acc d) k).isSome = true ∨
        ∃ x ∈ ds, (dictGet? x k).isSome = true) ↔
        ((dictGet? acc k).isSome = true ∨ ∃ x ∈ d :: ds, (dictGet? x k).isSome = true) := by
      rw [dictGet?_merge_isSome]
      simp [or_assoc]
    have hval : dictGetD (merge_dicts_with_list_values acc d) k ++
        ((ds.map fun x => dictGetD x k).flatten) =
        dictGetD acc k ++ (((d :: ds).map fun x => dictGetD x k).flatten) := by
      rw [dictGetD_merge]
      simp [List.append_assoc]
    rw [if_congr hc (by rw [hval]) rfl]

/-- C2: `needs_review` folds the reason-functions' result dicts in list
order starting from the empty dict, so each key's merged value is the
concatenation, in list order, of the reasons each function gave for it;
earlier functions' reasons come before later ones'. -/
theorem needs_review_fold_spec (fns : List (List K → ReasonDict K)) (self : List K) (k : K) :
    dictGet? (needs_review fns self) k =
      if ∃ f ∈ fns, (dictGet? (f self) k).isSome = true then
        some ((fns.map fun f => dictGetD (f self) k).flatten)
      else none := by
  unfold needs_review
  rw [dictGet?_foldl_merge]
  have h0 : dictGet? ([] : ReasonDict K) k = none := rfl
  simp [h0, dictGetD, List.map_map, Function.comp_def]

/-- A key is present in the aggregation result iff some reason-function
flagged it. -/
theorem needs_review_isSome_iff (fns : List (List K → ReasonDict K)) (self : List K) (k : K) :
    (dictGet? (needs_review fns self) k).isSome = true ↔
      ∃ f ∈ fns, (dictGet? (f self) k).isSome = true := by
  unfold needs_review
  rw [dictGet?_foldl_merge]
  have h0 : dictGet? ([] : ReasonDict K) k = none := rfl
  by_cases h : ∃ f ∈ fns, (dictGet? (f self) k).isSome = true
  · simp [h0, h, List.mem_map]
  · simp [h0, h, List.mem_map]

/-- A reason-function that flags an identity not in the input collection. -/
def rogueFn : List String → ReasonDict String :=
  fun _ => [("rogue", ["x"])]

/-- C3 counterexample: with reason-function list `[rogueFn]` and the empty
input collection, the output of `needs_review` holds the key "rogue" even
though the collection holds no identity at all, so the output key set is
not a subset of the collection's identities: the claim fails as stated,
without a hypothesis restricting what keys reason-functions may return. -/
theorem needs_review_keys_not_subset :
    ¬ ∀ k, (dictGet? (needs_review [rogueFn] ([] : List String)) k).isSome = true →
        k ∈ ([] : List String) := by
  intro h
  exact absurd (h "rogue" (by decide)) (by simp)

/-- C3 (amended): when every reason-function flags only identities of the
input collection, every key of the `needs_review` output is an identity of
the collection; and, unconditionally, a key is present in the output iff
at least one reason-function's result contains it. -/
theorem needs_review_keys_spec (fns : List (List K → ReasonDict K)) (self : List K) (k : K) :
    ((∀ f ∈ fns, ∀ x, (dictGet? (f self) x).isSome = true → x ∈ self) →
      (dictGet? (needs_review fns self) k).isSome = true → k ∈ self) ∧
    ((dictGet? (needs_review fns self) k).isSome = true ↔
      ∃ f ∈ fns, (dictGet? (f self) k).isSome = true) := by
  refine ⟨fun h hs => ?_, needs_review_isSome_iff fns self k⟩
  obtain ⟨f, hf, hfk⟩ := (needs_review_isSome_iff fns self k).mp hs
  exact h f hf k hfk

/-- A one-identity collection for the C3 witness. -/
def cReviewColl : List String := ["r1"]

/-- A reason-function flagging only the identity in `cReviewColl`. -/
def cReviewFn : List String → ReasonDict String :=
  fun _ => [("r1", ["a"])]

/-- Witness for the amended C3 theorem at a concrete input: the inner
restriction hypothesis is discharged for `[cReviewFn]`, the key presence
is evaluated, and both conclusions follow by applying the theorem. -/
theorem needs_review_keys_spec_witness :
    ("r1" ∈ cReviewColl) ∧
    ((dictGet? (needs_review [cReviewFn] cReviewColl) "r1").isSome = true ↔
      ∃ f ∈ [cReviewFn], (dictGet? (f cReviewColl) "r1").isSome = true) :=
  ⟨(needs_review_keys_spec [cReviewFn] cReviewColl "r1").1
      (by
        intro f hf x hx
        rw [List.mem_singleton] at hf
        subst hf
        by_cases hx1 : "r1" = x
        · rw [cReviewColl, ← hx1]
          exact List.mem_singleton_self "r1"
        · simp [cReviewFn, dictGet?, List.find?, hx1] at hx)
      (by decide),
   (needs_review_keys_spec [cReviewFn] cReviewColl "r1").2⟩

/-- Re-tagging a duplicate-key-free dict with its own lookups rebuilds it. -/
theorem map_dictGetD_eq_self (d : ReasonDict K) (hd : (dictKeys d).Nodup) :
    ((dictKeys d).map fun k => (k, dictGetD d k)) = d := by
  induction d with
  | nil => rfl
  | cons p d ih =>
    have hd' : p.1 ∉ dictKeys d ∧ (dictKeys d).Nodup := by
      have : (p.1 :: dictKeys d).Nodup := hd
      exact List.nodup_cons.mp this
    have hhead : dictGetD (p :: d) p.1 = p.2 := by
      simp [dictGetD, dictGet?, List.find?]
    have htail : ((dictKeys d).map fun k => (k, dictGetD (p :: d) k)) = d := by
      rw [List.map_congr_left, ih hd'.2]
      intro k hk
      have hne : ¬ p.1 = k := fun hc => hd'.1 (hc ▸ hk)
      simp [dictGetD, dictGet?, List.find?, hne]
    show (p.1, dictGetD (p :: d) p.1) :: ((dictKeys d).map fun k => (k, dictGetD (p :: d) k)) = p :: d
    rw [hhead, htail]

/-- C4: merging a mapping with the empty mapping, in either argument
position, returns the original mapping (every true dict has duplicate-free
keys, captured by the `Nodup` hypothesis). -/
theorem merge_empty_id (m : ReasonDict K) (hm : (dictKeys m).Nodup) :
    merge_dicts_with_list_values m ([] : ReasonDict K) = m ∧
    merge_dicts_with_list_values ([] : ReasonDict K) m = m := by
  have hkeys : dictKeys ([] : ReasonDict K) = [] := rfl
  have hget : ∀ k : K, dictGetD ([] : ReasonDict K) k = [] := fun k => rfl
  constructor
  · unfold merge_dicts_with_list_values
    rw [hkeys, List.append_nil, List.dedup_eq_self.mpr hm]
    rw [List.map_congr_left, map_dictGetD_eq_self m hm]
    intro k _
    rw [hget k, List.append_nil]
  · unfold merge_dicts_with_list_values
    rw [hkeys, List.nil_append, List.dedup_eq_self.mpr hm]
    rw [List.map_congr_left, map_dictGetD_eq_self m hm]
    intro k _
    rw [hget k, List.nil_append]

/-- A concrete one-entry dict for the C4 witness. -/
def cDict : ReasonDict String := [("rec1", ["missing source"])]

/-- Witness for C4 at a concrete dict. -/
theorem merge_empty_id_witness :
    (dictKeys cDict).Nodup ∧
    (merge_dicts_with_list_values cDict ([] : ReasonDict String) = cDict ∧
     merge_dicts_with_list_values ([] : ReasonDict String) cDict = cDict) :=
  ⟨by decide, merge_empty_id cDict (by decide)⟩

/-- Reason-function A of the spec scenario. -/
def fnA : List String → ReasonDict String :=
  fun _ => [("rec1", ["missing source"])]

/-- Reason-function B of the spec scenario. -/
def fnB : List String → ReasonDict String :=
  fun _ => [("rec1", ["no note"]), ("rec2", ["flagged IP"])]

/-- C5: aggregating with function list [A, B], where A flags rec1 with
"missing source" and B flags rec1 with "no note" and rec2 with
"flagged IP", yields exactly the dict mapping rec1 to ["missing source",
"no note"] and rec2 to ["flagged IP"], over any input collection. -/
theorem needs_review_scenario (self : List String) :
    needs_review [fnA, fnB] self =
      [("rec1", ["missing source", "no note"]), ("rec2", ["flagged IP"])] := by
  rfl

/-- Embedding of a `LoggedAction` row as the time-window filter sees it:
only the `created` timestamp matters, modelled in whole seconds (one day
is 86400 seconds, as in Python's `timedelta(days=...)`). -/
structure LoggedAction where
  created : Int
deriving DecidableEq

/-- Embedding of `LoggedActionQuerySet.in_recent_days` (db.py lines 27-29):
`self.filter(created__gte=(datetime.now() - timedelta(days=days)))`.
`now` is the value of `datetime.now()`; `days` defaults to 5 in the
source, and the claims instantiate it with 5. -/
def in_recent_days (self : List LoggedAction) (now : Int) (days : Int) : List LoggedAction :=
  self.filter fun la => decide (now - days * 86400 ≤ la.created)

/-- C6: with the default of 5 days, `in_recent_days` keeps exactly the
records created at or after `now` minus 5 days; a record created 6 days
ago is excluded and a record created 1 day ago is included. -/
theorem in_recent_days_spec (self : List LoggedAction) (now : Int) (la : LoggedAction) :
    (la ∈ in_recent_days self now 5 ↔ la ∈ self ∧ now - 5 * 86400 ≤ la.created) ∧
    (LoggedAction.mk (now - 6 * 86400) ∉
      in_recent_days [LoggedAction.mk (now - 6 * 86400), LoggedAction.mk (now - 86400)] now 5) ∧
    (LoggedAction.mk (now - 86400) ∈
      in_recent_days [LoggedAction.mk (now - 6 * 86400), LoggedAction.mk (now - 86400)] now 5) := by
  refine ⟨?_, ?_, ?_⟩
  · simp [in_recent_days, List.mem_filter]
  · have h6 : ¬ (now - 5 * 86400 ≤ now - 6 * 86400) := by omega
    simp [in_recent_days, List.mem_filter, h6]
    omega
  · have h1 : now - 5 * 86400 ≤ now - 86400 := by omega
    simp [in_recent_days, List.mem_filter, h1]
    omega

/-- Embedding of a `UserTermsAgreement` row (db.py lines 103-105): the
`assigned_to_dc` flag carries Django default `False`. The user is its
account identifier. -/
structure UserTermsAgreement where
  user : Nat
  assigned_to_dc : Bool
deriving DecidableEq

/-- Embedding of the `post_save` hook `create_user_terms_agreement`
(db.py lines 108-111): on a save event for user `u`, when `created` is
true it runs `UserTermsAgreement.objects.create(user=instance)`, adding
one row whose `assigned_to_dc` takes the model default `False`; otherwise
it does nothing. The store is the list of existing rows. -/
def create_user_terms_agreement (u : Nat) (created : Bool)
    (store : List UserTermsAgreement) : List UserTermsAgreement :=
  if created then store ++ [UserTermsAgreement.mk u false] else store

/-- C7: a user-account save event appends exactly one Terms-Agreement
record, with its acceptance flag false, iff the event is a creation; an
update event leaves the store unchanged, and a creation grows the store by
exactly one record. -/
theorem create_user_terms_agreement_spec (u : Nat) (created : Bool)
    (store : List UserTermsAgreement) :
    create_user_terms_agreement u created store =
      store ++ (if created then [UserTermsAgreement.mk u false] else []) ∧
    (create_user_terms_agreement u true store).length = store.length + 1 ∧
    create_user_terms_agreement u false store = store := by
  refine ⟨?_, ?_, rfl⟩
  · cases created <;> simp [create_user_terms_agreement]
  · simp [create_user_terms_agreement]

/-- Evaluation of the comprehension `[f(self) for f in needs_review_fns]`
when reason-functions may raise: functions run left to right and the first
raised exception aborts the whole comprehension, yielding no list. -/
def runFns (fns : List (List K → Except String (ReasonDict K))) (self : List K) :
    Except String (List (ReasonDict K)) :=
  match fns with
  | [] => Except.ok []
  | f :: rest =>
    match f self with
    | Except.error e => Except.error e
    | Except.ok d =>
      match runFns rest self with
      | Except.error e => Except.error e
      | Except.ok ds => Except.ok (d :: ds)

/-- Embedding of `needs_review` with possibly-raising reason-functions:
the comprehension is evaluated first (aborting on the first exception),
then the pure `reduce` runs only when every function returned. -/
def needs_review_exc (fns : List (List K → Except String (ReasonDict K))) (self : List K) :
    Except String (ReasonDict K) :=
  match runFns fns self with
  | Except.error e => Except.error e
  | Except.ok ds => Except.ok (ds.foldl merge_dicts_with_list_values [])

/-- An error outcome of the comprehension comes from one of the
reason-functions. -/
theorem runFns_error_mem (fns : List (List K → Except String (ReasonDict K)))
    (self : List K) (e : String) (h : runFns fns self = Except.error e) :
    ∃ f ∈ fns, f self = Except.error e := by
  induction fns with
  | nil => exact absurd h (by simp [runFns])
  | cons f rest ih =>
    rw [runFns] at h
    cases hf : f self with
    | error e2 =>
      rw [hf] at h
      rw [Except.error.injEq] at h
      exact ⟨f, List.mem_cons_self f rest, by rw [hf, h]⟩
    | ok d =>
      rw [hf] at h
      cases hr : runFns rest self with
      | error e2 =>
        rw [hr] at h
        rw [Except.error.injEq] at h
        obtain ⟨g, hg, hge⟩ := ih (by rw [hr, h])
        exact ⟨g, List.mem_cons_of_mem f hg, hge⟩
      | ok ds =>
        rw [hr] at h
        exact absurd h (by simp)

/-- The comprehension succeeds exactly when every reason-function does. -/
theorem runFns_ok_iff (fns : List (List K → Except String (ReasonDict K))) (self : List K) :
    (∃ ds, runFns fns self = Except.ok ds) ↔ ∀ f ∈ fns, ∃ d, f self = Except.ok d := by
  induction fns with
  | nil => simp [runFns]
  | cons f rest ih =>
    constructor
    · rintro ⟨ds, hds⟩
      rw [runFns] at hds
      cases hf : f self with
      | error e2 => rw [hf] at hds; exact absurd hds (by simp)
      | ok d =>
        rw [hf] at hds
        cases hr : runFns rest self with
        | error e2 => rw [hr] at hds; exact absurd hds (by simp)
        | ok ds2 =>
          intro g hg
          rcases List.mem_cons.mp hg with hg | hg
          · exact ⟨d, by rw [hg, hf]⟩
          · exact (ih.mp ⟨ds2, hr⟩) g hg
    · intro h
      obtain ⟨d, hd⟩ := h f (List.mem_cons_self f rest)
      obtain ⟨ds, hds⟩ := ih.mpr fun g hg => h g (List.mem_cons_of_mem f hg)
      exact ⟨d :: ds, by rw [runFns, hd, hds]⟩

/-- C8: if any reason-function raises, `needs_review_exc` propagates an
error raised by one of the functions and produces no result dict; an
error outcome occurs exactly when some reason-function raised. -/
theorem needs_review_exc_spec (fns : List (List K → Except String (ReasonDict K)))
    (self : List K) (e : String) :
    (needs_review_exc fns self = Except.error e → ∃ f ∈ fns, f self = Except.error e) ∧
    ((∃ f ∈ fns, ∃ e2, f self = Except.error e2) ↔
      ∃ e2, needs_review_exc fns self = Except.error e2) := by
  constructor
  · intro h
    rw [needs_review_exc] at h
    cases hr : runFns fns self with
    | error e2 =>
      rw [hr] at h
      rw [Except.error.injEq] at h
      exact runFns_error_mem fns self e (by rw [hr, h])
    | ok ds => rw [hr] at h; exact absurd h (by simp)
  · constructor
    · rintro ⟨f, hf, e2, hfe⟩
      cases hr : runFns fns self with
      | error e3 => exact ⟨e3, by rw [needs_review_exc, hr]⟩
      | ok ds =>
        obtain ⟨d, hd⟩ := ((runFns_ok_iff fns self).mp ⟨ds, hr⟩) f hf
        rw [hfe] at hd
        exact absurd hd (by simp)
    · rintro ⟨e2, he⟩
      rw [needs_review_exc] at he
      cases hr : runFns fns self with
      | error e3 =>
        obtain ⟨f, hf, hfe⟩ := runFns_error_mem fns self e3 hr
        exact ⟨f, hf, e3, hfe⟩
      | ok ds => rw [hr] at he; exact absurd he (by simp)

/-- A reason-function that always raises, for the C8 witness. -/
def cFailFn : List String → Except String (ReasonDict String) :=
  fun _ => Except.error "boom"

/-- Witness for C8 at a concrete failing reason-function. -/
theorem needs_review_exc_spec_witness :
    (needs_review_exc [cFailFn] ([] : List String) = Except.error "boom" →
      ∃ f ∈ [cFailFn], f ([] : List String) = Except.error "boom") ∧
    ((∃ f ∈ [cFailFn], ∃ e2, f ([] : List String) = Except.error e2) ↔
      ∃ e2, needs_review_exc [cFailFn] ([] : List String) = Except.error e2) :=
  needs_review_exc_spec [cFailFn] [] "boom"

/-- The record store seen by the aggregator: the collection of record
identities the queryset ranges over. State is threaded explicitly so that
reads and (absent) writes are visible. -/
structure Store (K : Type) where
  records : List K

/-- State-passing evaluation of `[f(self) for f in needs_review_fns]`:
each call reads the store's records; no step writes the store. -/
def runReasonFns (fns : List (List K → ReasonDict K)) (st : Store K) :
    List (ReasonDict K) × Store K :=
  match fns with
  | [] => ([], st)
  | f :: rest =>
    let d := f st.records
    let p := runReasonFns rest st
    (d :: p.1, p.2)

/-- State-passing embedding of `needs_review`: evaluate the comprehension
against the store, then fold the pure merge over the results. -/
def needs_review_run (fns : List (List K → ReasonDict K)) (st : Store K) :
    ReasonDict K × Store K :=
  let p := runReasonFns fns st
  (p.1.foldl merge_dicts_with_list_values [], p.2)

/-- The comprehension returns the map of the functions over the records
and leaves the store untouched. -/
theorem runReasonFns_eq (fns : List (List K → ReasonDict K)) (st : Store K) :
    runReasonFns fns st = (fns.map fun f => f st.records, st) := by
  induction fns with
  | nil => rfl
  | cons f rest ih => rw [runReasonFns, ih]; rfl

/-- C9: running the aggregator leaves the record store unchanged and its
value is the pure aggregation over the store's records: the aggregator
only reads the collection, never writing it or any stored record. -/
theorem needs_review_frame (fns : List (List K → ReasonDict K)) (st : Store K) :
    needs_review_run fns st = (needs_review fns st.records, st) := by
  rw [needs_review_run, runReasonFns_eq, needs_review]

/-- Deduplicating the left operand first does not change a list union. -/
theorem dedup_union_left (l m : List K) : l.dedup ∪ m = l ∪ m := by
  induction l with
  | nil => rfl
  | cons a l ih =>
    by_cases h : a ∈ l
    · rw [List.dedup_cons_of_mem h, ih, List.cons_union,
        List.insert_of_mem (List.mem_union_left h m)]
    · rw [List.dedup_cons_of_not_mem h, List.cons_union, List.cons_union, ih]

/-- Deduplicating the right part before appending does not change the
deduplicated append. -/
theorem dedup_append_dedup_right (l m : List K) :
    (l ++ m.dedup).dedup = (l ++ m).dedup := by
  rw [List.dedup_append, List.dedup_append, List.dedup_idem]

/-- Deduplicating the left part before appending does not change the
deduplicated append. -/
theorem dedup_dedup_append_left (l m : List K) :
    (l.dedup ++ m).dedup = (l ++ m).dedup := by
  rw [List.dedup_append, List.dedup_append, dedup_union_left]

/-- C10: `merge_dicts_with_list_values` is associative, so the
aggregator's fold result does not depend on how adjacent merges are
grouped. -/
theorem merge_dicts_with_list_values_assoc (a b c : ReasonDict K) :
    merge_dicts_with_list_values a (merge_dicts_with_list_values b c) =
      merge_dicts_with_list_values (merge_dicts_with_list_values a b) c := by
  have hL : merge_dicts_with_list_values a (merge_dicts_with_list_values b c) =
      ((dictKeys a ++ (dictKeys b ++ dictKeys c)).dedup).map
        fun k => (k, dictGetD a k ++ (dictGetD b k ++ dictGetD c k)) := by
    conv_lhs => rw [merge_dicts_with_list_values]
    rw [dictKeys_merge, dedup_append_dedup_right]
    exact List.map_congr_left fun k _ => by rw [dictGetD_merge]
  have hR : merge_dicts_with_list_values (merge_dicts_with_list_values a b) c =
      (((dictKeys a ++ dictKeys b) ++ dictKeys c).dedup).map
        fun k => (k, (dictGetD a k ++ dictGetD b k) ++ dictGetD c k) := by
    conv_lhs => rw [merge_dicts_with_list_values]
    rw [dictKeys_merge, dedup_dedup_append_left]
    exact List.map_congr_left fun k _ => by rw [dictGetD_merge]
  rw [hL, hR, ← List.append_assoc]
  exact List.map_congr_left fun k _ => by rw [List.append_assoc]
